import Mathlib

/-!
Shallow embedding of the gap buffer from `mod gap` in `src/main.rs` of the
repository under verification, together with proofs of the specified
properties.

Modelling conventions:
* Raw storage is a `List (Option α)` whose length is the allocated capacity
  (the Rust `Vec` always has length 0 and is used purely as raw capacity).
  A slot holding `none` is uninitialized memory; a slot holding `some x`
  holds a live (or stale, if inside the gap) element value `x`.
* `std::ptr::copy` (memmove, overlap-tolerant) and
  `std::ptr::copy_nonoverlapping` are both modelled by `copyFrom`, which
  reads every copied slot from the original source list, i.e. exactly the
  "as if through a temporary buffer" semantics of memmove.
* `set_position`'s out-of-range branch in the source is a Rust `panic`;
  here it is the `none` result of an `Option (GapBuffer α)`.
* `remove` returns the pair (returned value, new state); `std::ptr::read`
  leaves the source bits in place, so the slot keeps its stale contents.
-/

set_option maxHeartbeats 1000000

namespace RustGap

/-- State of `gap::GapBuffer<T>`: `storage` is the raw allocation (length =
capacity), `gapStart .. gapEnd` is the uninitialized range `gap`. -/
structure GapBuffer (α : Type) where
  storage : List (Option α)
  gapStart : Nat
  gapEnd : Nat
deriving DecidableEq

namespace GapBuffer

variable {α : Type}

/-- `GapBuffer::new`: empty storage, gap `0..0`. -/
def new : GapBuffer α := ⟨[], 0, 0⟩

/-- `GapBuffer::capacity`: number of raw slots. -/
def capacity (b : GapBuffer α) : Nat := b.storage.length

/-- Length of the gap range (`self.gap.len()` on the Rust `Range`). -/
def gapLen (b : GapBuffer α) : Nat := b.gapEnd - b.gapStart

/-- `GapBuffer::len`: `capacity() - gap.len()`. -/
def len (b : GapBuffer α) : Nat := b.capacity - b.gapLen

/-- `GapBuffer::position`: `gap.start`. -/
def position (b : GapBuffer α) : Nat := b.gapStart

/-- `GapBuffer::space`: contents of raw slot `index` (dereferenced);
`none` when the slot is uninitialized or out of range. -/
def space (b : GapBuffer α) (i : Nat) : Option α := b.storage.getD i none

/-- `GapBuffer::index_to_raw`: gap-skipping logical-to-raw index map. -/
def index_to_raw (b : GapBuffer α) (i : Nat) : Nat :=
  if i < b.gapStart then i else i + b.gapLen

/-- `GapBuffer::get`: bound-check the raw index against `capacity()`, then
dereference; `None` past the end. -/
def get (b : GapBuffer α) (i : Nat) : Option α :=
  if b.index_to_raw i < b.capacity then b.space (b.index_to_raw i) else none

/-- Memmove/memcpy model: copy `n` slots, reading slot `sp + k` of `src`
and writing it to slot `dp + k` of `dst`; all reads are from the original
`src`, which is the overlap-tolerant semantics of `std::ptr::copy`. -/
def copyFrom (src dst : List (Option α)) (sp dp : Nat) : Nat → List (Option α)
  | 0 => dst
  | n + 1 => (copyFrom src dst sp dp n).set (dp + n) (src.getD (sp + n) none)

/-- Body of `GapBuffer::set_position` after the bound check: slide the gap
to `pos` with the two overlapping `std::ptr::copy` calls of the source. -/
def slide (b : GapBuffer α) (pos : Nat) : GapBuffer α :=
  if pos > b.gapStart then
    ⟨copyFrom b.storage b.storage b.gapEnd b.gapStart (pos - b.gapStart),
     pos, pos + b.gapLen⟩
  else if pos < b.gapStart then
    ⟨copyFrom b.storage b.storage pos (b.gapEnd - (b.gapStart - pos)) (b.gapStart - pos),
     pos, pos + b.gapLen⟩
  else
    ⟨b.storage, pos, pos + b.gapLen⟩

/-- `GapBuffer::set_position`: `none` models the `panic` on `pos > len()`,
otherwise the gap is slid to `pos`. -/
def set_position (b : GapBuffer α) (pos : Nat) : Option (GapBuffer α) :=
  if pos > b.len then none else some (b.slide pos)

/-- `GapBuffer::remove`: at `gap.end == capacity()` return `None` and leave
the state alone; otherwise read the slot after the gap and grow the gap's
right edge by one (`ptr::read` leaves the slot bits in place). -/
def remove (b : GapBuffer α) : Option α × GapBuffer α :=
  if b.gapEnd = b.capacity then (none, b)
  else (b.space b.gapEnd, ⟨b.storage, b.gapStart, b.gapEnd + 1⟩)

/-- `GapBuffer::enlarge_gap`: double the capacity (4 when it was 0), move
the slots before the gap to the front of the new storage and the slots
after the gap flush against its end, both with
`std::ptr::copy_nonoverlapping`. -/
def enlarge_gap (b : GapBuffer α) : GapBuffer α :=
  let new_capacity := if b.capacity * 2 = 0 then 4 else b.capacity * 2
  let after_gap := b.capacity - b.gapEnd
  let new_gap_end := new_capacity - after_gap
  let s1 := copyFrom b.storage (List.replicate new_capacity none) 0 0 b.gapStart
  let s2 := copyFrom b.storage s1 b.gapEnd new_gap_end after_gap
  ⟨s2, b.gapStart, new_gap_end⟩

/-- First statement of `GapBuffer::insert`: enlarge the gap when it is
empty, otherwise keep the buffer as is. -/
def grown (b : GapBuffer α) : GapBuffer α :=
  if b.gapLen = 0 then b.enlarge_gap else b

/-- `GapBuffer::insert`: after the possible growth, write `elt` into raw
slot `gap.start` and advance `gap.start` by one. -/
def insert (b : GapBuffer α) (elt : α) : GapBuffer α :=
  ⟨(b.grown).storage.set (b.grown).gapStart (some elt),
   (b.grown).gapStart + 1, (b.grown).gapEnd⟩

/-- `GapBuffer::insert_iter`: repeated `insert` in produced order. -/
def insert_iter (b : GapBuffer α) (l : List α) : GapBuffer α :=
  l.foldl insert b

/-- Raw indices released by `impl Drop for GapBuffer`: the two loops
`0 .. gap.start` and `gap.end .. capacity()`, in loop order. -/
def dropIndices (b : GapBuffer α) : List Nat :=
  List.range b.gapStart ++ List.range' b.gapEnd (b.capacity - b.gapEnd)

/-- Slot contents released by `impl Drop for GapBuffer`, in release
order. -/
def droppedElems (b : GapBuffer α) : List (Option α) :=
  b.dropIndices.map b.space

/-- Logical-order reconstruction ignoring the gap: the slots before the
gap followed by the slots after the gap. -/
def logicalList (b : GapBuffer α) : List (Option α) :=
  b.storage.take b.gapStart ++ b.storage.drop b.gapEnd

/-- The gap-range invariant stated by the specification:
`0 ≤ gap.start ≤ gap.end ≤ capacity`. -/
def Inv (b : GapBuffer α) : Prop :=
  0 ≤ b.gapStart ∧ b.gapStart ≤ b.gapEnd ∧ b.gapEnd ≤ b.capacity

/-- Full well-formedness: the gap range invariant plus initialization of
every raw slot outside the gap. -/
def Wf (b : GapBuffer α) : Prop :=
  b.gapStart ≤ b.gapEnd ∧ b.gapEnd ≤ b.capacity ∧
    ∀ i : Nat, i < b.capacity → (i < b.gapStart ∨ b.gapEnd ≤ i) →
      (b.space i).isSome = true

instance (b : GapBuffer α) : Decidable b.Inv := by
  unfold Inv
  exact inferInstance

instance (b : GapBuffer α) : Decidable b.Wf := by
  unfold Wf
  exact inferInstance

end GapBuffer

/-- States reachable from `GapBuffer::new` through the public mutating
API (`set_position` only when it does not panic). -/
inductive Reachable : GapBuffer α → Prop
  | new : Reachable GapBuffer.new
  | insert (b : GapBuffer α) (a : α) : Reachable b → Reachable (b.insert a)
  | insert_iter (b : GapBuffer α) (l : List α) :
      Reachable b → Reachable (b.insert_iter l)
  | set_position (b b' : GapBuffer α) (pos : Nat) :
      Reachable b → b.set_position pos = some b' → Reachable b'
  | remove (b : GapBuffer α) : Reachable b → Reachable (b.remove).2

/-- Edit operation for the length-conservation property: an `insert` with
a given value, or a `remove` whose returned value is discarded. -/
inductive EditOp (α : Type) where
  | ins : α → EditOp α
  | del : EditOp α

/-- Run a list of edit operations left to right. -/
def runEdits (b : GapBuffer α) : List (EditOp α) → GapBuffer α
  | [] => b
  | EditOp.ins a :: ops => runEdits (b.insert a) ops
  | EditOp.del :: ops => runEdits (b.remove).2 ops

/-- Number of `ins` operations in a list of edits. -/
def insCount : List (EditOp α) → Nat
  | [] => 0
  | EditOp.ins _ :: ops => insCount ops + 1
  | EditOp.del :: ops => insCount ops

/-- Number of `del` operations that actually return an element when the
edits are run from `b`. -/
def okRemoves (b : GapBuffer α) : List (EditOp α) → Nat
  | [] => 0
  | EditOp.ins a :: ops => okRemoves (b.insert a) ops
  | EditOp.del :: ops =>
      (if ((b.remove).1).isSome then 1 else 0) + okRemoves (b.remove).2 ops

/-- Scenario A, first step (`main` in the source): the characters of
"Lord of the Rings" inserted into a fresh buffer. -/
def lotr1 : GapBuffer Char := GapBuffer.new.insert_iter ("Lord of the Rings".toList)

/-- Scenario A, second step: cursor moved to logical index 12. The
`set_position` call succeeds (proved below); `getD` is only there to make
the value total. -/
def lotr2 : GapBuffer Char := (lotr1.set_position 12).getD lotr1

/-- Scenario A end state: the characters of "Onion " inserted at the
cursor. -/
def lotrA : GapBuffer Char := lotr2.insert_iter ("Onion ".toList)

namespace GapBuffer

/-! ## Helper lemmas -/

theorem getElem?_eq_some_getD (L : List (Option α)) (r : Nat) (h : r < L.length) :
    L[r]? = some (L.getD r none) := by
  rw [List.getD_eq_getElem?_getD, List.getElem?_eq_getElem h]
  rfl

theorem length_copyFrom (src dst : List (Option α)) (sp dp n : Nat) :
    (copyFrom src dst sp dp n).length = dst.length := by
  induction n with
  | zero => rfl
  | succ n ih => simp [copyFrom, ih]

theorem copyFrom_getD (src dst : List (Option α)) (sp dp n j : Nat) :
    (copyFrom src dst sp dp n).getD j none =
      if dp ≤ j ∧ j < dp + n ∧ j < dst.length then src.getD (sp + (j - dp)) none
      else dst.getD j none := by
  induction n with
  | zero =>
    rw [if_neg (by omega)]
    rfl
  | succ n ih =>
    by_cases hj : dp + n = j
    · subst hj
      have hdp : dp + n - dp = n := by omega
      by_cases hlen : dp + n < dst.length
      · rw [copyFrom, List.getD_eq_getElem?_getD, List.getElem?_set, if_pos rfl,
            length_copyFrom, if_pos hlen, if_pos (by omega), hdp, Option.getD_some]
      · rw [copyFrom, List.getD_eq_getElem?_getD, List.getElem?_set, if_pos rfl,
            length_copyFrom, if_neg hlen, if_neg (by omega),
            List.getD_eq_getElem?_getD, List.getElem?_eq_none (by omega)]
    · rw [copyFrom, List.getD_eq_getElem?_getD, List.getElem?_set, if_neg hj,
          ← List.getD_eq_getElem?_getD, ih]
      by_cases hc : dp ≤ j ∧ j < dp + n ∧ j < dst.length
      · rw [if_pos hc, if_pos (by omega)]
      · rw [if_neg hc, if_neg (by omega)]

theorem inv_of_wf (b : GapBuffer α) (h : b.Wf) : b.Inv :=
  ⟨Nat.zero_le _, h.1, h.2.1⟩

theorem raw_lt_iff (b : GapBuffer α) (h : b.Inv) (i : Nat) :
    b.index_to_raw i < b.capacity ↔ i < b.len := by
  obtain ⟨-, h1, h2⟩ := h
  unfold index_to_raw len gapLen
  split <;> omega

theorem get_of_lt (b : GapBuffer α) (h : b.Inv) (i : Nat) (hi : i < b.len) :
    b.get i = b.space (b.index_to_raw i) := by
  unfold get
  rw [if_pos ((raw_lt_iff b h i).2 hi)]

theorem get_of_le (b : GapBuffer α) (h : b.Inv) (i : Nat) (hi : b.len ≤ i) :
    b.get i = none := by
  unfold get
  rw [if_neg (fun hlt => absurd ((raw_lt_iff b h i).1 hlt) (by omega))]

theorem get_isSome (b : GapBuffer α) (h : b.Wf) (i : Nat) (hi : i < b.len) :
    (b.get i).isSome = true := by
  rw [get_of_lt b (inv_of_wf b h) i hi]
  obtain ⟨h1, h2, h3⟩ := h
  apply h3
  · exact (raw_lt_iff b ⟨Nat.zero_le _, h1, h2⟩ i).2 hi
  · unfold index_to_raw gapLen
    split <;> omega

theorem wf_of_get (b : GapBuffer α) (hInv : b.Inv)
    (hsome : ∀ i : Nat, i < b.len → (b.get i).isSome = true) : b.Wf := by
  refine ⟨hInv.2.1, hInv.2.2, ?_⟩
  obtain ⟨-, h1, h2⟩ := hInv
  intro k hk hout
  by_cases hks : k < b.gapStart
  · have hlen : k < b.len := by unfold len gapLen; omega
    have hg := hsome k hlen
    rw [get_of_lt b ⟨Nat.zero_le _, h1, h2⟩ k hlen] at hg
    unfold index_to_raw at hg
    rw [if_pos hks] at hg
    exact hg
  · have hge : b.gapEnd ≤ k := by
      rcases hout with h | h
      · exact absurd h hks
      · exact h
    have hlen : k - b.gapLen < b.len := by unfold len gapLen; omega
    have hg := hsome (k - b.gapLen) hlen
    rw [get_of_lt b ⟨Nat.zero_le _, h1, h2⟩ _ hlen] at hg
    unfold index_to_raw at hg
    rw [if_neg (by unfold gapLen; omega)] at hg
    have heq : k - b.gapLen + b.gapLen = k := by unfold gapLen; omega
    rw [heq] at hg
    exact hg

theorem length_logicalList (b : GapBuffer α) (h : b.Inv) :
    b.logicalList.length = b.len := by
  obtain ⟨-, h1, h2⟩ := h
  simp only [capacity] at h2
  simp only [logicalList, len, gapLen, capacity, List.length_append,
    List.length_take, List.length_drop]
  omega

theorem logicalList_getElem? (b : GapBuffer α) (h : b.Inv) (i : Nat) :
    b.logicalList[i]? =
      if i < b.len then some (b.space (b.index_to_raw i)) else none := by
  obtain ⟨-, h1, h2⟩ := h
  simp only [capacity] at h2
  have hts : (b.storage.take b.gapStart).length = b.gapStart := by
    simp [List.length_take]
    omega
  by_cases hi : i < b.len
  · rw [if_pos hi]
    simp only [len, gapLen, capacity] at hi
    unfold logicalList
    by_cases his : i < b.gapStart
    · rw [List.getElem?_append_left (by rw [hts]; exact his), List.getElem?_take,
          if_pos his]
      unfold space index_to_raw
      rw [if_pos his]
      exact getElem?_eq_some_getD _ _ (by omega)
    · rw [List.getElem?_append_right (by rw [hts]; omega), hts, List.getElem?_drop]
      unfold space index_to_raw gapLen
      rw [if_neg his]
      have harith : b.gapEnd + (i - b.gapStart) = i + (b.gapEnd - b.gapStart) := by
        omega
      rw [harith]
      exact getElem?_eq_some_getD _ _ (by omega)
  · rw [if_neg hi]
    simp only [len, gapLen, capacity] at hi
    unfold logicalList
    rw [List.getElem?_eq_none]
    simp only [List.length_append, List.length_take, List.length_drop]
    omega

theorem logicalList_getElem?_get (b : GapBuffer α) (h : b.Inv) (i : Nat) :
    b.logicalList[i]? = if i < b.len then some (b.get i) else none := by
  rw [logicalList_getElem? b h i]
  by_cases hi : i < b.len
  · rw [if_pos hi, if_pos hi, get_of_lt b h i hi]
  · rw [if_neg hi, if_neg hi]

theorem logicalList_ext (b b' : GapBuffer α) (hb : b.Inv) (hb' : b'.Inv)
    (hlen : b.len = b'.len) (hget : ∀ i : Nat, b.get i = b'.get i) :
    b.logicalList = b'.logicalList := by
  apply List.ext_getElem?
  intro i
  rw [logicalList_getElem?_get b hb i, logicalList_getElem?_get b' hb' i, hlen,
    hget i]

/-! ## Lemmas about `slide` (the body of `set_position`) -/

theorem slide_gapStart (b : GapBuffer α) (pos : Nat) :
    (b.slide pos).gapStart = pos := by
  unfold slide
  split
  · rfl
  split
  · rfl
  · rfl

theorem slide_gapEnd (b : GapBuffer α) (pos : Nat) :
    (b.slide pos).gapEnd = pos + b.gapLen := by
  unfold slide
  split
  · rfl
  split
  · rfl
  · rfl

theorem slide_capacity (b : GapBuffer α) (pos : Nat) :
    (b.slide pos).capacity = b.capacity := by
  unfold slide capacity
  split
  · apply length_copyFrom
  split
  · apply length_copyFrom
  · rfl

theorem slide_gapLen (b : GapBuffer α) (pos : Nat) :
    (b.slide pos).gapLen = b.gapLen := by
  unfold gapLen
  rw [slide_gapStart, slide_gapEnd]
  unfold gapLen
  omega

theorem slide_len (b : GapBuffer α) (pos : Nat) :
    (b.slide pos).len = b.len := by
  unfold len
  rw [slide_capacity, slide_gapLen]

theorem slide_inv (b : GapBuffer α) (pos : Nat) (h : b.Inv) (hpos : pos ≤ b.len) :
    (b.slide pos).Inv := by
  obtain ⟨-, h1, h2⟩ := h
  simp only [len, gapLen] at hpos
  refine ⟨Nat.zero_le _, ?_, ?_⟩
  · rw [slide_gapStart, slide_gapEnd]
    omega
  · rw [slide_gapEnd, slide_capacity]
    unfold gapLen
    omega

theorem slide_space (b : GapBuffer α) (pos : Nat) (h : b.Inv) (_hps : pos ≤ b.len)
    (i : Nat) (hi : i < b.len) :
    (b.slide pos).space ((b.slide pos).index_to_raw i) =
      b.space (b.index_to_raw i) := by
  obtain ⟨-, h1, h2⟩ := h
  simp only [capacity] at h2
  simp only [len, gapLen, capacity] at hi
  unfold slide
  split
  next hgt =>
    simp only [space, index_to_raw, gapLen]
    have hg : pos + (b.gapEnd - b.gapStart) - pos = b.gapEnd - b.gapStart := by
      omega
    rw [hg]
    rcases Nat.lt_or_ge i b.gapStart with hA | hBC
    · rw [if_pos (show i < pos by omega), if_pos hA, copyFrom_getD,
        if_neg (by omega)]
    · rcases Nat.lt_or_ge i pos with hB | hC
      · rw [if_pos hB, if_neg (by omega), copyFrom_getD,
          if_pos ⟨by omega, by omega, by omega⟩]
        have harith : b.gapEnd + (i - b.gapStart) = i + (b.gapEnd - b.gapStart) := by
          omega
        rw [harith]
      · rw [if_neg (by omega), if_neg (by omega), copyFrom_getD, if_neg (by omega)]
  next hngt =>
    split
    next hlt =>
      simp only [space, index_to_raw, gapLen]
      have hg : pos + (b.gapEnd - b.gapStart) - pos = b.gapEnd - b.gapStart := by
        omega
      rw [hg]
      rcases Nat.lt_or_ge i pos with hA | hBC
      · rw [if_pos hA, if_pos (show i < b.gapStart by omega), copyFrom_getD,
          if_neg (by omega)]
      · rcases Nat.lt_or_ge i b.gapStart with hB | hC
        · rw [if_neg (by omega), if_pos hB, copyFrom_getD,
            if_pos ⟨by omega, by omega, by omega⟩]
          have harith :
              pos + (i + (b.gapEnd - b.gapStart) -
                (b.gapEnd - (b.gapStart - pos))) = i := by
            omega
          rw [harith]
        · rw [if_neg (by omega), if_neg (by omega), copyFrom_getD, if_neg (by omega)]
    next hnlt =>
      have hpg : pos = b.gapStart := by omega
      simp only [space, index_to_raw, gapLen]
      have hg : pos + (b.gapEnd - b.gapStart) - pos = b.gapEnd - b.gapStart := by
        omega
      rw [hg, hpg]

theorem slide_get (b : GapBuffer α) (pos : Nat) (h : b.Inv) (hpos : pos ≤ b.len)
    (i : Nat) : (b.slide pos).get i = b.get i := by
  by_cases hi : i < b.len
  · rw [get_of_lt _ (slide_inv b pos h hpos) i (by rw [slide_len]; exact hi),
      get_of_lt b h i hi]
    exact slide_space b pos h hpos i hi
  · rw [get_of_le _ (slide_inv b pos h hpos) i (by rw [slide_len]; omega),
      get_of_le b h i (by omega)]

theorem slide_wf (b : GapBuffer α) (pos : Nat) (h : b.Wf) (hpos : pos ≤ b.len) :
    (b.slide pos).Wf := by
  apply wf_of_get _ (slide_inv b pos (inv_of_wf b h) hpos)
  intro i hi
  rw [slide_get b pos (inv_of_wf b h) hpos i]
  exact get_isSome b h i (by rw [slide_len] at hi; exact hi)

theorem set_position_eq_none (b : GapBuffer α) (pos : Nat) :
    b.set_position pos = none ↔ b.len < pos := by
  unfold set_position
  by_cases hp : pos > b.len
  · rw [if_pos hp]
    exact ⟨fun _ => hp, fun _ => rfl⟩
  · rw [if_neg hp]
    exact ⟨fun hc => absurd hc (by simp), fun hc => absurd hc hp⟩

theorem set_position_eq_some (b : GapBuffer α) (pos : Nat) (hpos : pos ≤ b.len) :
    b.set_position pos = some (b.slide pos) := by
  unfold set_position
  rw [if_neg (by omega)]

theorem set_position_inv (b b' : GapBuffer α) (pos : Nat) (h : b.Inv)
    (hs : b.set_position pos = some b') : b'.Inv := by
  by_cases hp : pos ≤ b.len
  · rw [set_position_eq_some b pos hp] at hs
    cases hs
    exact slide_inv b pos h hp
  · rw [(set_position_eq_none b pos).2 (by omega)] at hs
    cases hs

theorem set_position_wf (b b' : GapBuffer α) (pos : Nat) (h : b.Wf)
    (hs : b.set_position pos = some b') : b'.Wf := by
  by_cases hp : pos ≤ b.len
  · rw [set_position_eq_some b pos hp] at hs
    cases hs
    exact slide_wf b pos h hp
  · rw [(set_position_eq_none b pos).2 (by omega)] at hs
    cases hs

/-! ## Lemmas about `enlarge_gap` -/

theorem enlarge_gap_gapStart (b : GapBuffer α) :
    (b.enlarge_gap).gapStart = b.gapStart := rfl

theorem enlarge_gap_gapEnd (b : GapBuffer α) :
    (b.enlarge_gap).gapEnd =
      (if b.capacity * 2 = 0 then 4 else b.capacity * 2) -
        (b.capacity - b.gapEnd) := rfl

theorem enlarge_gap_capacity (b : GapBuffer α) :
    (b.enlarge_gap).capacity =
      if b.capacity * 2 = 0 then 4 else b.capacity * 2 := by
  show (b.enlarge_gap).storage.length = _
  simp only [enlarge_gap]
  rw [length_copyFrom, length_copyFrom, List.length_replicate]

theorem capacity_le_enlarge_gap_capacity (b : GapBuffer α) :
    b.capacity ≤ (b.enlarge_gap).capacity := by
  rw [enlarge_gap_capacity]
  split <;> omega

theorem enlarge_gap_len (b : GapBuffer α) (h : b.Inv) :
    (b.enlarge_gap).len = b.len := by
  obtain ⟨-, h1, h2⟩ := h
  unfold len gapLen
  rw [enlarge_gap_capacity, enlarge_gap_gapEnd, enlarge_gap_gapStart]
  split <;> omega

theorem enlarge_gap_gapLen_pos (b : GapBuffer α) (h : b.Inv) :
    0 < (b.enlarge_gap).gapLen := by
  obtain ⟨-, h1, h2⟩ := h
  unfold gapLen
  rw [enlarge_gap_gapEnd, enlarge_gap_gapStart]
  split <;> omega

theorem enlarge_gap_inv (b : GapBuffer α) (h : b.Inv) : (b.enlarge_gap).Inv := by
  obtain ⟨-, h1, h2⟩ := h
  refine ⟨Nat.zero_le _, ?_, ?_⟩
  · rw [enlarge_gap_gapEnd, enlarge_gap_gapStart]
    split <;> omega
  · rw [enlarge_gap_gapEnd, enlarge_gap_capacity]
    split <;> omega

theorem enlarge_gap_space (b : GapBuffer α) (h : b.Inv) (i : Nat) (hi : i < b.len) :
    (b.enlarge_gap).space ((b.enlarge_gap).index_to_raw i) =
      b.space (b.index_to_raw i) := by
  obtain ⟨-, h1, h2⟩ := h
  simp only [len, gapLen, capacity] at hi
  simp only [capacity] at h2
  simp only [enlarge_gap, space, index_to_raw, gapLen, capacity]
  set C2 := (if b.storage.length * 2 = 0 then 4 else b.storage.length * 2) with hC2
  have hC : b.storage.length ≤ C2 := by
    rw [hC2]
    split <;> omega
  rcases Nat.lt_or_ge i b.gapStart with hA | hB
  · rw [if_pos hA, if_pos hA, copyFrom_getD, if_neg (by omega), copyFrom_getD,
      if_pos ⟨Nat.zero_le _, by omega, by simp only [List.length_replicate]; omega⟩]
    have harith : 0 + (i - 0) = i := by omega
    rw [harith]
  · rw [if_neg (by omega), if_neg (by omega), copyFrom_getD,
      if_pos ⟨by omega, by omega,
        by rw [length_copyFrom, List.length_replicate]; omega⟩]
    have harith :
        b.gapEnd + (i + (C2 - (b.storage.length - b.gapEnd) - b.gapStart) -
          (C2 - (b.storage.length - b.gapEnd))) = i + (b.gapEnd - b.gapStart) := by
      omega
    rw [harith]

theorem enlarge_gap_get (b : GapBuffer α) (h : b.Inv) (i : Nat) :
    (b.enlarge_gap).get i = b.get i := by
  by_cases hi : i < b.len
  · rw [get_of_lt _ (enlarge_gap_inv b h) i (by rw [enlarge_gap_len b h]; exact hi),
      get_of_lt b h i hi]
    exact enlarge_gap_space b h i hi
  · rw [get_of_le _ (enlarge_gap_inv b h) i (by rw [enlarge_gap_len b h]; omega),
      get_of_le b h i (by omega)]

theorem enlarge_gap_wf (b : GapBuffer α) (h : b.Wf) : (b.enlarge_gap).Wf := by
  apply wf_of_get _ (enlarge_gap_inv b (inv_of_wf b h))
  intro i hi
  rw [enlarge_gap_get b (inv_of_wf b h) i]
  exact get_isSome b h i (by rw [enlarge_gap_len b (inv_of_wf b h)] at hi; exact hi)

/-! ## Lemmas about `grown` (the growth step at the top of `insert`) -/

theorem grown_gapStart (b : GapBuffer α) : (b.grown).gapStart = b.gapStart := by
  unfold grown
  split
  · exact enlarge_gap_gapStart b
  · rfl

theorem grown_inv (b : GapBuffer α) (h : b.Inv) : (b.grown).Inv := by
  unfold grown
  split
  · exact enlarge_gap_inv b h
  · exact h

theorem grown_wf (b : GapBuffer α) (h : b.Wf) : (b.grown).Wf := by
  unfold grown
  split
  · exact enlarge_gap_wf b h
  · exact h

theorem grown_len (b : GapBuffer α) (h : b.Inv) : (b.grown).len = b.len := by
  unfold grown
  split
  · exact enlarge_gap_len b h
  · rfl

theorem grown_gapLen_pos (b : GapBuffer α) (h : b.Inv) : 0 < (b.grown).gapLen := by
  unfold grown
  split
  next hz => exact enlarge_gap_gapLen_pos b h
  next hz => omega

theorem grown_get (b : GapBuffer α) (h : b.Inv) (i : Nat) :
    (b.grown).get i = b.get i := by
  unfold grown
  split
  · exact enlarge_gap_get b h i
  · rfl

theorem grown_capacity_le (b : GapBuffer α) : b.capacity ≤ (b.grown).capacity := by
  unfold grown
  split
  · exact capacity_le_enlarge_gap_capacity b
  · exact Nat.le_refl _

/-! ## Lemmas about `insert` -/

theorem getD_set_ne (L : List (Option α)) (k j : Nat) (v : Option α) (h : k ≠ j) :
    (L.set k v).getD j none = L.getD j none := by
  rw [List.getD_eq_getElem?_getD, List.getElem?_set_ne h,
    ← List.getD_eq_getElem?_getD]

theorem getD_set_self (L : List (Option α)) (k : Nat) (v : Option α)
    (h : k < L.length) : (L.set k v).getD k none = v := by
  rw [List.getD_eq_getElem?_getD, List.getElem?_set_self h]
  rfl

theorem insert_gapStart (b : GapBuffer α) (a : α) :
    (b.insert a).gapStart = (b.grown).gapStart + 1 := rfl

theorem insert_gapEnd (b : GapBuffer α) (a : α) :
    (b.insert a).gapEnd = (b.grown).gapEnd := rfl

theorem insert_capacity (b : GapBuffer α) (a : α) :
    (b.insert a).capacity = (b.grown).capacity := by
  show ((b.grown).storage.set (b.grown).gapStart (some a)).length = _
  rw [List.length_set]
  rfl

theorem insert_position (b : GapBuffer α) (a : α) :
    (b.insert a).position = b.position + 1 := by
  unfold position
  rw [insert_gapStart, grown_gapStart]

theorem insert_len (b : GapBuffer α) (a : α) (h : b.Inv) :
    (b.insert a).len = b.len + 1 := by
  have hgi := grown_inv b h
  obtain ⟨-, hg1, hg2⟩ := hgi
  have hgp := grown_gapLen_pos b h
  unfold gapLen at hgp
  have hgl := grown_len b h
  unfold len gapLen at hgl
  unfold len gapLen
  rw [insert_capacity, insert_gapStart, insert_gapEnd]
  omega

theorem insert_inv (b : GapBuffer α) (a : α) (h : b.Inv) : (b.insert a).Inv := by
  have hgi := grown_inv b h
  obtain ⟨-, hg1, hg2⟩ := hgi
  have hgp := grown_gapLen_pos b h
  unfold gapLen at hgp
  refine ⟨Nat.zero_le _, ?_, ?_⟩
  · rw [insert_gapStart, insert_gapEnd]
    omega
  · rw [insert_gapEnd, insert_capacity]
    omega

theorem insert_get (b : GapBuffer α) (a : α) (h : b.Inv) (i : Nat) :
    (b.insert a).get i =
      if i < b.position then b.get i
      else if i = b.position then some a
      else b.get (i - 1) := by
  have hgi := grown_inv b h
  have hgp := grown_gapLen_pos b h
  have hgl := grown_len b h
  have hgs := grown_gapStart b
  have hii := insert_inv b a h
  have hil := insert_len b a h
  have hbl : b.gapStart ≤ b.len := by
    obtain ⟨-, h1, h2⟩ := h
    unfold len gapLen
    omega
  have hglen : (b.grown).gapStart < (b.grown).gapEnd := by
    unfold gapLen at hgp
    omega
  have hgcap : (b.grown).gapEnd ≤ (b.grown).storage.length := hgi.2.2
  unfold position
  rcases Nat.lt_trichotomy i b.gapStart with hA | hB | hC
  · rw [if_pos hA, ← grown_get b h i,
      get_of_lt _ hii i (by omega),
      get_of_lt _ hgi i (by omega)]
    show ((b.grown).storage.set (b.grown).gapStart (some a)).getD
        ((b.insert a).index_to_raw i) none = _
    unfold index_to_raw
    rw [insert_gapStart, if_pos (by omega), if_pos (by omega),
      getD_set_ne _ _ _ _ (by omega)]
    rfl
  · rw [if_neg (by omega), if_pos hB,
      get_of_lt _ hii i (by omega)]
    show ((b.grown).storage.set (b.grown).gapStart (some a)).getD
        ((b.insert a).index_to_raw i) none = _
    unfold index_to_raw
    rw [insert_gapStart, if_pos (by omega)]
    rw [hB, ← hgs]
    exact getD_set_self _ _ _ (by omega)
  · rw [if_neg (by omega), if_neg (by omega)]
    rcases Nat.lt_or_ge (i - 1) b.len with hD | hD
    · rw [← grown_get b h (i - 1),
        get_of_lt _ hii i (by omega),
        get_of_lt _ hgi (i - 1) (by omega)]
      show ((b.grown).storage.set (b.grown).gapStart (some a)).getD
          ((b.insert a).index_to_raw i) none = _
      unfold index_to_raw
      rw [insert_gapStart]
      unfold gapLen
      rw [insert_gapEnd, insert_gapStart, if_neg (by omega), if_neg (by omega),
        getD_set_ne _ _ _ _ (by omega)]
      have harith : i + ((b.grown).gapEnd - ((b.grown).gapStart + 1)) =
          i - 1 + ((b.grown).gapEnd - (b.grown).gapStart) := by
        omega
      rw [harith]
      rfl
    · rw [get_of_le _ hii i (by omega), get_of_le b h (i - 1) (by omega)]

theorem insert_wf (b : GapBuffer α) (a : α) (h : b.Wf) : (b.insert a).Wf := by
  have hinv := inv_of_wf b h
  apply wf_of_get _ (insert_inv b a hinv)
  intro i hi
  rw [insert_len b a hinv] at hi
  rw [insert_get b a hinv i]
  have hbl : b.position ≤ b.len := by
    obtain ⟨-, h1, h2⟩ := hinv
    unfold position len gapLen
    omega
  rcases Nat.lt_trichotomy i b.position with hA | hB | hC
  · rw [if_pos hA]
    exact get_isSome b h i (by omega)
  · rw [if_neg (by omega), if_pos hB]
    rfl
  · rw [if_neg (by omega), if_neg (by omega)]
    exact get_isSome b h (i - 1) (by omega)

/-! ## Lemmas about `remove` -/

theorem remove_of_end (b : GapBuffer α) (h : b.gapEnd = b.capacity) :
    b.remove = (none, b) := by
  unfold remove
  rw [if_pos h]

theorem remove_of_mid (b : GapBuffer α) (h : b.gapEnd ≠ b.capacity) :
    b.remove = (b.space b.gapEnd, ⟨b.storage, b.gapStart, b.gapEnd + 1⟩) := by
  unfold remove
  rw [if_neg h]

theorem space_gapEnd_isSome (b : GapBuffer α) (h : b.Wf)
    (hne : b.gapEnd ≠ b.capacity) : (b.space b.gapEnd).isSome = true := by
  obtain ⟨h1, h2, h3⟩ := h
  exact h3 b.gapEnd (by omega) (Or.inr (Nat.le_refl _))

theorem remove_capacity (b : GapBuffer α) : ((b.remove).2).capacity = b.capacity := by
  by_cases he : b.gapEnd = b.capacity
  · rw [remove_of_end b he]
  · rw [remove_of_mid b he]
    rfl

theorem remove_len (b : GapBuffer α) (h : b.Inv) (hne : b.gapEnd ≠ b.capacity) :
    ((b.remove).2).len + 1 = b.len := by
  obtain ⟨-, h1, h2⟩ := h
  rw [remove_of_mid b hne]
  unfold len gapLen capacity at *
  dsimp only
  omega

theorem remove_wf (b : GapBuffer α) (h : b.Wf) : ((b.remove).2).Wf := by
  by_cases he : b.gapEnd = b.capacity
  · rw [remove_of_end b he]
    exact h
  · rw [remove_of_mid b he]
    obtain ⟨h1, h2, h3⟩ := h
    unfold capacity at h2 he
    refine ⟨by dsimp only; omega, by show b.gapEnd + 1 ≤ b.storage.length; omega, ?_⟩
    intro i hk hout
    simp only [capacity] at hk
    dsimp only at hk hout
    show (b.storage.getD i none).isSome = true
    exact h3 i hk (by omega)

/-! ## Lemmas about `insert_iter`, `new` and `Reachable` -/

theorem insert_iter_nil (b : GapBuffer α) : b.insert_iter [] = b := rfl

theorem insert_iter_cons (b : GapBuffer α) (x : α) (xs : List α) :
    b.insert_iter (x :: xs) = (b.insert x).insert_iter xs := rfl

theorem insert_iter_wf (b : GapBuffer α) (l : List α) (h : b.Wf) :
    (b.insert_iter l).Wf := by
  induction l generalizing b with
  | nil => exact h
  | cons x xs ih =>
    rw [insert_iter_cons]
    exact ih _ (insert_wf b x h)

theorem insert_capacity_le (b : GapBuffer α) (a : α) :
    b.capacity ≤ (b.insert a).capacity := by
  rw [insert_capacity]
  exact grown_capacity_le b

theorem insert_iter_capacity_le (b : GapBuffer α) (l : List α) :
    b.capacity ≤ (b.insert_iter l).capacity := by
  induction l generalizing b with
  | nil => exact Nat.le_refl _
  | cons x xs ih =>
    rw [insert_iter_cons]
    exact Nat.le_trans (insert_capacity_le b x) (ih (b.insert x))

theorem new_wf : (GapBuffer.new : GapBuffer α).Wf := by
  refine ⟨Nat.le_refl _, Nat.le_refl _, ?_⟩
  intro i hk _
  simp [new, capacity] at hk

theorem set_position_capacity (b b' : GapBuffer α) (pos : Nat)
    (hs : b.set_position pos = some b') : b'.capacity = b.capacity := by
  by_cases hp : pos ≤ b.len
  · rw [set_position_eq_some b pos hp] at hs
    cases hs
    exact slide_capacity b pos
  · rw [(set_position_eq_none b pos).2 (by omega)] at hs
    cases hs

theorem wf_of_reachable (b : GapBuffer α) (h : Reachable b) : b.Wf := by
  induction h with
  | new => exact new_wf
  | insert b a _ ih => exact insert_wf b a ih
  | insert_iter b l _ ih => exact insert_iter_wf b l ih
  | set_position b b' pos _ hs ih => exact set_position_wf b b' pos ih hs
  | remove b _ ih => exact remove_wf b ih

theorem capOk_insert (b : GapBuffer α) (a : α)
    (h : b.capacity = 0 ∨ 4 ≤ b.capacity) :
    (b.insert a).capacity = 0 ∨ 4 ≤ (b.insert a).capacity := by
  rw [insert_capacity]
  unfold grown
  split
  · rw [enlarge_gap_capacity]
    split <;> omega
  · exact h

theorem capOk_insert_iter (b : GapBuffer α) (l : List α)
    (h : b.capacity = 0 ∨ 4 ≤ b.capacity) :
    (b.insert_iter l).capacity = 0 ∨ 4 ≤ (b.insert_iter l).capacity := by
  induction l generalizing b with
  | nil => exact h
  | cons x xs ih =>
    rw [insert_iter_cons]
    exact ih _ (capOk_insert b x h)

theorem capOk_of_reachable (b : GapBuffer α) (h : Reachable b) :
    b.capacity = 0 ∨ 4 ≤ b.capacity := by
  induction h with
  | new => left; rfl
  | insert b a _ ih => exact capOk_insert b a ih
  | insert_iter b l _ ih => exact capOk_insert_iter b l ih
  | set_position b b' pos _ hs ih => rw [set_position_capacity b b' pos hs]; exact ih
  | remove b _ ih => rw [remove_capacity b]; exact ih

/-! ## Lemmas about the drop model -/

theorem map_space_range (b : GapBuffer α) (h : b.gapStart ≤ b.storage.length) :
    (List.range b.gapStart).map b.space = b.storage.take b.gapStart := by
  apply List.ext_getElem?
  intro i
  rw [List.getElem?_map, List.getElem?_take]
  by_cases hi : i < b.gapStart
  · rw [if_pos hi, List.getElem?_range hi]
    show some (b.space i) = _
    unfold space
    exact (getElem?_eq_some_getD _ _ (by omega)).symm
  · rw [if_neg hi, List.getElem?_eq_none (by rw [List.length_range]; omega)]
    rfl

theorem map_space_range' (b : GapBuffer α) (h : b.gapEnd ≤ b.storage.length) :
    (List.range' b.gapEnd (b.capacity - b.gapEnd)).map b.space =
      b.storage.drop b.gapEnd := by
  apply List.ext_getElem?
  intro i
  rw [List.getElem?_map, List.getElem?_drop]
  by_cases hi : i < b.capacity - b.gapEnd
  · rw [List.getElem?_range' _ _ hi]
    show some (b.space (b.gapEnd + 1 * i)) = _
    rw [Nat.one_mul]
    unfold space capacity at *
    exact (getElem?_eq_some_getD _ _ (by omega)).symm
  · rw [List.getElem?_eq_none (by rw [List.length_range']; omega),
      List.getElem?_eq_none (by unfold capacity at hi; omega)]
    rfl

/-! ## Length conservation over edit sequences -/

theorem runEdits_len (b : GapBuffer α) (ops : List (EditOp α)) (h : b.Wf) :
    (runEdits b ops).len + okRemoves b ops = b.len + insCount ops := by
  induction ops generalizing b with
  | nil => rfl
  | cons op ops ih =>
    cases op with
    | ins a =>
      show (runEdits (b.insert a) ops).len + okRemoves (b.insert a) ops =
        b.len + (insCount ops + 1)
      have := ih (b.insert a) (insert_wf b a h)
      rw [insert_len b a (inv_of_wf b h)] at this
      omega
    | del =>
      show (runEdits (b.remove).2 ops).len +
          ((if ((b.remove).1).isSome then 1 else 0) + okRemoves (b.remove).2 ops) =
        b.len + insCount ops
      have hrec := ih (b.remove).2 (remove_wf b h)
      by_cases he : b.gapEnd = b.capacity
      · have he1 : (b.remove).1 = none := by rw [remove_of_end b he]
        have he2 : (b.remove).2 = b := by rw [remove_of_end b he]
        rw [he2] at hrec
        rw [he1, he2]
        simp only [Option.isSome_none, Bool.false_eq_true, if_false]
        omega
      · have hm1 : (b.remove).1 = b.space b.gapEnd := by rw [remove_of_mid b he]
        have hm2 : (b.remove).2 = ⟨b.storage, b.gapStart, b.gapEnd + 1⟩ := by
          rw [remove_of_mid b he]
        have hlen := remove_len b (inv_of_wf b h) he
        have hsome := space_gapEnd_isSome b h he
        rw [hm2] at hrec hlen
        rw [hm1, hm2, if_pos hsome]
        omega

theorem remove_inv (b : GapBuffer α) (h : b.Inv) : ((b.remove).2).Inv := by
  by_cases he : b.gapEnd = b.capacity
  · rw [remove_of_end b he]
    exact h
  · rw [remove_of_mid b he]
    obtain ⟨-, h1, h2⟩ := h
    unfold capacity at h2 he
    exact ⟨Nat.zero_le _, by show b.gapStart ≤ b.gapEnd + 1; omega,
      by show b.gapEnd + 1 ≤ b.storage.length; omega⟩

theorem insert_iter_inv (b : GapBuffer α) (l : List α) (h : b.Inv) :
    (b.insert_iter l).Inv := by
  induction l generalizing b with
  | nil => exact h
  | cons x xs ih =>
    rw [insert_iter_cons]
    exact ih _ (insert_inv b x h)

end GapBuffer

/-! ## Claim theorems -/

/-- C1: on every buffer reachable by the public operations, the raw bound
check `raw < capacity()` coincides with `i < len()`; for `i < len()`,
`get i` returns exactly the element the logical-order reconstruction
(slots before the gap followed by slots after the gap) places at `i`, and
it is a present element; for `i ≥ len()`, `get i` returns `none`. -/
theorem claim1_get_logical {α : Type} (b : GapBuffer α) (hr : Reachable b)
    (i : Nat) :
    (b.index_to_raw i < b.capacity ↔ i < b.len) ∧
    (i < b.len →
      b.get i = (b.logicalList[i]?).join ∧ (b.get i).isSome = true) ∧
    (b.len ≤ i → b.get i = none) := by
  have hw := GapBuffer.wf_of_reachable b hr
  have hinv := GapBuffer.inv_of_wf b hw
  refine ⟨GapBuffer.raw_lt_iff b hinv i,
    fun hi => ⟨?_, GapBuffer.get_isSome b hw i hi⟩,
    fun hi => GapBuffer.get_of_le b hinv i hi⟩
  rw [GapBuffer.logicalList_getElem?_get b hinv i, if_pos hi]
  rfl

/-- Witness for C1: a freshly built one-element buffer, at index 0. -/
theorem claim1_witness :
    (GapBuffer.new.insert 'a' : GapBuffer Char).get 0 =
        (((GapBuffer.new.insert 'a' : GapBuffer Char).logicalList)[0]?).join ∧
      ((GapBuffer.new.insert 'a' : GapBuffer Char).get 0).isSome = true :=
  (claim1_get_logical (GapBuffer.new.insert 'a')
    (Reachable.insert GapBuffer.new 'a' Reachable.new) 0).2.1 (by decide)

/-- C2: `set_position pos` signals the fatal contract violation (modelled
as `none`) exactly when `pos > len()`; when `pos ≤ len()` it returns a
buffer whose `position()` is `pos`. -/
theorem claim2_set_position_contract {α : Type} (b : GapBuffer α) (pos : Nat) :
    (b.set_position pos = none ↔ b.len < pos) ∧
    (pos ≤ b.len →
      ∃ b' : GapBuffer α, b.set_position pos = some b' ∧ b'.position = pos) := by
  refine ⟨GapBuffer.set_position_eq_none b pos,
    fun hp => ⟨b.slide pos, GapBuffer.set_position_eq_some b pos hp, ?_⟩⟩
  unfold GapBuffer.position
  exact GapBuffer.slide_gapStart b pos

/-- Witness for C2 on the empty buffer at position 0. -/
theorem claim2_witness :
    ∃ b' : GapBuffer Char,
      (GapBuffer.new : GapBuffer Char).set_position 0 = some b' ∧
        b'.position = 0 :=
  (claim2_set_position_contract (GapBuffer.new : GapBuffer Char) 0).2 (by decide)

/-- C3: `remove` returns `none` and leaves the state unchanged exactly
when `gap.end = capacity()` (equivalently the cursor sits at the end,
`position() = len()`); otherwise it returns the present element at raw
index `gap.end` and grows the gap by one on its right edge, shrinking
`len()` by one. -/
theorem claim3_remove_contract {α : Type} (b : GapBuffer α) (h : b.Wf) :
    (b.remove = (none, b) ↔ b.gapEnd = b.capacity) ∧
    ((b.remove).1 = none ↔ b.gapEnd = b.capacity) ∧
    (b.gapEnd = b.capacity ↔ b.position = b.len) ∧
    (b.gapEnd ≠ b.capacity →
      (b.remove).1 = b.space b.gapEnd ∧ ((b.remove).1).isSome = true ∧
      (b.remove).2 = ⟨b.storage, b.gapStart, b.gapEnd + 1⟩ ∧
      ((b.remove).2).gapEnd = b.gapEnd + 1 ∧ ((b.remove).2).len + 1 = b.len) := by
  have hfst : ∀ hne : b.gapEnd ≠ b.capacity, (b.remove).1 = b.space b.gapEnd := by
    intro hne
    rw [GapBuffer.remove_of_mid b hne]
  refine ⟨⟨?_, fun he => GapBuffer.remove_of_end b he⟩,
    ⟨?_, fun he => by rw [GapBuffer.remove_of_end b he]⟩, ?_, ?_⟩
  · intro hq
    by_contra hne
    have hs := GapBuffer.space_gapEnd_isSome b h hne
    have h1 := hfst hne
    rw [hq] at h1
    rw [← h1] at hs
    simp at hs
  · intro hq
    by_contra hne
    have hs := GapBuffer.space_gapEnd_isSome b h hne
    rw [← hfst hne, hq] at hs
    simp at hs
  · obtain ⟨h1, h2, -⟩ := h
    unfold GapBuffer.position GapBuffer.len GapBuffer.gapLen
    omega
  · intro hne
    refine ⟨hfst hne, by rw [hfst hne]; exact GapBuffer.space_gapEnd_isSome b h hne,
      by rw [GapBuffer.remove_of_mid b hne], by rw [GapBuffer.remove_of_mid b hne],
      GapBuffer.remove_len b (GapBuffer.inv_of_wf b h) hne⟩

/-- Witness for C3 on a one-element buffer with the cursor at the front. -/
theorem claim3_witness :
    ((⟨[some 'a'], 0, 0⟩ : GapBuffer Char).remove).1 =
        (⟨[some 'a'], 0, 0⟩ : GapBuffer Char).space
          (⟨[some 'a'], 0, 0⟩ : GapBuffer Char).gapEnd ∧
      (((⟨[some 'a'], 0, 0⟩ : GapBuffer Char).remove).1).isSome = true ∧
      ((⟨[some 'a'], 0, 0⟩ : GapBuffer Char).remove).2 =
        ⟨(⟨[some 'a'], 0, 0⟩ : GapBuffer Char).storage,
          (⟨[some 'a'], 0, 0⟩ : GapBuffer Char).gapStart,
          (⟨[some 'a'], 0, 0⟩ : GapBuffer Char).gapEnd + 1⟩ ∧
      (((⟨[some 'a'], 0, 0⟩ : GapBuffer Char).remove).2).gapEnd =
        (⟨[some 'a'], 0, 0⟩ : GapBuffer Char).gapEnd + 1 ∧
      (((⟨[some 'a'], 0, 0⟩ : GapBuffer Char).remove).2).len + 1 =
        (⟨[some 'a'], 0, 0⟩ : GapBuffer Char).len :=
  (claim3_remove_contract (⟨[some 'a'], 0, 0⟩ : GapBuffer Char)
    (by decide)).2.2.2 (by decide)

/-- C4: after any sequence of `insert`/`remove` operations on a fresh
buffer, `len()` equals the number of inserts minus the number of removes
that returned an element; and `len()` is always `capacity()` minus the
gap length. -/
theorem claim4_len_conservation {α : Type} (ops : List (EditOp α)) :
    (runEdits (GapBuffer.new : GapBuffer α) ops).len =
        insCount ops - okRemoves (GapBuffer.new : GapBuffer α) ops ∧
    okRemoves (GapBuffer.new : GapBuffer α) ops ≤ insCount ops ∧
    (∀ b : GapBuffer α, b.len = b.capacity - (b.gapEnd - b.gapStart)) := by
  have h := GapBuffer.runEdits_len (GapBuffer.new : GapBuffer α) ops
    GapBuffer.new_wf
  have hnew : (GapBuffer.new : GapBuffer α).len = 0 := rfl
  exact ⟨by omega, by omega, fun b => rfl⟩

/-- C5: growth happens inside `insert` exactly when the gap is empty (the
two equations exhibit the growth-free and the growing path of `insert`);
when `enlarge_gap` runs, the new capacity is `max 4 (2 * capacity)` (the
code writes `capacity * 2`, patched to `4` when zero, which agrees except
at the unreachable capacity 1 — reachable capacities are 0 or at least
4), the prefix length and hence `position()` is unchanged, and the new
gap end places the suffix flush against the new end of storage. -/
theorem claim5_growth_policy {α : Type} :
    (∀ (b : GapBuffer α) (a : α), b.gapLen ≠ 0 →
        b.insert a = ⟨b.storage.set b.gapStart (some a), b.gapStart + 1, b.gapEnd⟩) ∧
    (∀ (b : GapBuffer α) (a : α), b.gapLen = 0 →
        b.insert a = ⟨(b.enlarge_gap).storage.set (b.enlarge_gap).gapStart (some a),
          (b.enlarge_gap).gapStart + 1, (b.enlarge_gap).gapEnd⟩) ∧
    (∀ b : GapBuffer α, b.capacity ≠ 1 →
        (b.enlarge_gap).capacity = max 4 (2 * b.capacity)) ∧
    (∀ b : GapBuffer α,
        (b.enlarge_gap).gapStart = b.gapStart ∧
        (b.enlarge_gap).position = b.position ∧
        (b.enlarge_gap).gapEnd =
          (b.enlarge_gap).capacity - (b.capacity - b.gapEnd)) ∧
    (∀ b : GapBuffer α, Reachable b → b.capacity = 0 ∨ 4 ≤ b.capacity) := by
  refine ⟨?_, ?_, ?_, ?_, fun b h => GapBuffer.capOk_of_reachable b h⟩
  · intro b a hne
    unfold GapBuffer.insert GapBuffer.grown
    rw [if_neg hne]
  · intro b a he
    unfold GapBuffer.insert GapBuffer.grown
    rw [if_pos he]
  · intro b hc
    rw [GapBuffer.enlarge_gap_capacity]
    rcases Nat.eq_zero_or_pos b.capacity with h0 | h1
    · rw [h0]
      simp
    · rw [if_neg (by omega)]
      omega
  · intro b
    refine ⟨rfl, rfl, ?_⟩
    rw [GapBuffer.enlarge_gap_gapEnd, GapBuffer.enlarge_gap_capacity]

/-- Witness for C5: growing the empty buffer reaches capacity
`max 4 (2 * 0) = 4`. -/
theorem claim5_witness :
    ((GapBuffer.new : GapBuffer Char).enlarge_gap).capacity =
      max 4 (2 * (GapBuffer.new : GapBuffer Char).capacity) :=
  claim5_growth_policy.2.2.1 (GapBuffer.new : GapBuffer Char) (by decide)

/-- C6: `enlarge_gap` preserves the logical contents and the cursor;
`insert` splices the new element at the cursor into the logical contents
(so earlier elements are never lost, duplicated or reordered, even when
the insert triggers growth); and `capacity()` never decreases across any
public operation. -/
theorem claim6_growth_transparency {α : Type} :
    (∀ b : GapBuffer α, b.Wf →
        (b.enlarge_gap).logicalList = b.logicalList ∧
        (b.enlarge_gap).position = b.position) ∧
    (∀ (b : GapBuffer α) (a : α), b.Wf →
        (b.insert a).logicalList =
          b.logicalList.take b.position ++
            some a :: b.logicalList.drop b.position) ∧
    (∀ (b : GapBuffer α) (a : α), b.capacity ≤ (b.insert a).capacity) ∧
    (∀ b : GapBuffer α, ((b.remove).2).capacity = b.capacity) ∧
    (∀ (b b' : GapBuffer α) (pos : Nat), b.set_position pos = some b' →
        b'.capacity = b.capacity) ∧
    (∀ (b : GapBuffer α) (l : List α), b.capacity ≤ (b.insert_iter l).capacity) := by
  refine ⟨?_, ?_, fun b a => GapBuffer.insert_capacity_le b a,
    fun b => GapBuffer.remove_capacity b,
    fun b b' pos hs => GapBuffer.set_position_capacity b b' pos hs,
    fun b l => GapBuffer.insert_iter_capacity_le b l⟩
  · intro b hw
    have hinv := GapBuffer.inv_of_wf b hw
    exact ⟨GapBuffer.logicalList_ext _ b (GapBuffer.enlarge_gap_inv b hinv) hinv
      (GapBuffer.enlarge_gap_len b hinv) (fun i => GapBuffer.enlarge_gap_get b hinv i),
      rfl⟩
  · intro b a hw
    have hinv := GapBuffer.inv_of_wf b hw
    have hlenL := GapBuffer.length_logicalList b hinv
    have hpos_le : b.position ≤ b.len := by
      obtain ⟨-, h1, h2⟩ := hinv
      unfold GapBuffer.position GapBuffer.len GapBuffer.gapLen
      omega
    have htake : (b.logicalList.take b.position).length = b.position := by
      rw [List.length_take, hlenL]
      omega
    apply List.ext_getElem?
    intro i
    rw [GapBuffer.logicalList_getElem?_get _ (GapBuffer.insert_inv b a hinv) i,
      GapBuffer.insert_len b a hinv, GapBuffer.insert_get b a hinv i]
    rcases Nat.lt_trichotomy i b.position with hA | hB | hC
    · rw [if_pos (show i < b.len + 1 by omega), if_pos hA,
        List.getElem?_append_left (by rw [htake]; exact hA), List.getElem?_take,
        if_pos hA, GapBuffer.logicalList_getElem?_get b hinv i,
        if_pos (show i < b.len by omega)]
    · rw [if_pos (show i < b.len + 1 by omega), if_neg (by omega), if_pos hB,
        List.getElem?_append_right (by rw [htake]; omega), htake, hB]
      have hz : b.position - b.position = 0 := by omega
      rw [hz, List.getElem?_cons_zero]
    · rw [if_neg (show ¬ i < b.position by omega),
        if_neg (show ¬ i = b.position by omega),
        List.getElem?_append_right (by rw [htake]; omega), htake]
      have hsub : i - b.position = (i - b.position - 1) + 1 := by omega
      rw [hsub, List.getElem?_cons_succ, List.getElem?_drop]
      have hidx : b.position + (i - b.position - 1) = i - 1 := by omega
      rw [hidx, GapBuffer.logicalList_getElem?_get b hinv (i - 1)]
      by_cases hD : i < b.len + 1
      · rw [if_pos hD, if_pos (show i - 1 < b.len by omega)]
      · rw [if_neg hD, if_neg (show ¬ i - 1 < b.len by omega)]

/-- Witness for C6: inserting into the (well-formed) empty buffer splices
at position 0. -/
theorem claim6_witness :
    (GapBuffer.new.insert 'z' : GapBuffer Char).logicalList =
      (GapBuffer.new : GapBuffer Char).logicalList.take
          (GapBuffer.new : GapBuffer Char).position ++
        some 'z' :: (GapBuffer.new : GapBuffer Char).logicalList.drop
          (GapBuffer.new : GapBuffer Char).position :=
  claim6_growth_transparency.2.1 GapBuffer.new 'z' GapBuffer.new_wf

/-- C7: the gap range invariant `0 ≤ gap.start ≤ gap.end ≤ capacity`
holds for the freshly constructed buffer and is preserved by every
mutating public operation (`get`, `position`, `len`, `capacity` do not
mutate the state). -/
theorem claim7_gap_invariant {α : Type} :
    (GapBuffer.new : GapBuffer α).Inv ∧
    (∀ (b : GapBuffer α) (a : α), b.Inv → (b.insert a).Inv) ∧
    (∀ b : GapBuffer α, b.Inv → ((b.remove).2).Inv) ∧
    (∀ (b b' : GapBuffer α) (pos : Nat), b.Inv → b.set_position pos = some b' →
        b'.Inv) ∧
    (∀ (b : GapBuffer α) (l : List α), b.Inv → (b.insert_iter l).Inv) :=
  ⟨⟨Nat.le_refl 0, Nat.le_refl 0, Nat.le_refl 0⟩,
    fun b a h => GapBuffer.insert_inv b a h,
    fun b h => GapBuffer.remove_inv b h,
    fun b b' pos h hs => GapBuffer.set_position_inv b b' pos h hs,
    fun b l h => GapBuffer.insert_iter_inv b l h⟩

/-- Witness for C7: inserting into the empty buffer preserves the gap
range invariant. -/
theorem claim7_witness : ((GapBuffer.new : GapBuffer Char).insert 'q').Inv :=
  claim7_gap_invariant.2.1 (GapBuffer.new : GapBuffer Char) 'q' (by decide)

/-- C8: the raw indices released on destruction are exactly those outside
the gap, each exactly once (no duplicates), gap slots are never touched,
and the released slot contents are exactly the logical contents — one
release per live element. -/
theorem claim8_drop_contract {α : Type} (b : GapBuffer α) (h : b.Wf) :
    b.dropIndices.Nodup ∧
    (∀ i : Nat, i ∈ b.dropIndices ↔
      (i < b.gapStart ∨ (b.gapEnd ≤ i ∧ i < b.capacity))) ∧
    (∀ i ∈ b.dropIndices, ¬ (b.gapStart ≤ i ∧ i < b.gapEnd)) ∧
    b.droppedElems = b.logicalList ∧
    b.dropIndices.length = b.len ∧
    (∀ i ∈ b.dropIndices, (b.space i).isSome = true) := by
  obtain ⟨h1, h2, h3⟩ := h
  have hcap : b.gapEnd ≤ b.storage.length := h2
  have hmem : ∀ i : Nat, i ∈ b.dropIndices ↔
      (i < b.gapStart ∨ (b.gapEnd ≤ i ∧ i < b.capacity)) := by
    intro i
    unfold GapBuffer.dropIndices
    rw [List.mem_append, List.mem_range, List.mem_range'_1]
    unfold GapBuffer.capacity at *
    omega
  refine ⟨?_, hmem, ?_, ?_, ?_, ?_⟩
  · unfold GapBuffer.dropIndices
    rw [List.nodup_append]
    refine ⟨List.nodup_range b.gapStart, List.nodup_range' b.gapEnd _, ?_⟩
    intro a ha hb
    rw [List.mem_range] at ha
    rw [List.mem_range'_1] at hb
    omega
  · intro i hi
    rw [hmem i] at hi
    omega
  · unfold GapBuffer.droppedElems GapBuffer.dropIndices GapBuffer.logicalList
    rw [List.map_append, GapBuffer.map_space_range b (by unfold GapBuffer.capacity at h2; omega),
      GapBuffer.map_space_range' b (by unfold GapBuffer.capacity at h2; omega)]
  · unfold GapBuffer.dropIndices GapBuffer.len GapBuffer.gapLen
    rw [List.length_append, List.length_range, List.length_range']
    unfold GapBuffer.capacity at *
    omega
  · intro i hi
    rw [hmem i] at hi
    exact h3 i (by omega) (by omega)

/-- Witness for C8 on the empty buffer. -/
theorem claim8_witness : (GapBuffer.new : GapBuffer Char).dropIndices.Nodup :=
  (claim8_drop_contract (GapBuffer.new : GapBuffer Char) GapBuffer.new_wf).1

/-- C9: Scenario A and B of the source `main`: inserting
"Lord of the Rings", moving the cursor to 12 (which succeeds) and
inserting "Onion " yields the logical sequence
"Lord of the Onion Rings", and five successive removes then return
'R', 'i', 'n', 'g', 's' in order. -/
theorem claim9_scenario :
    (lotr1.set_position 12).isSome = true ∧
    lotrA.logicalList = ("Lord of the Onion Rings".toList.map some) ∧
    (lotrA.remove).1 = some 'R' ∧
    (((lotrA.remove).2).remove).1 = some 'i' ∧
    (((((lotrA.remove).2).remove).2).remove).1 = some 'n' ∧
    (((((((lotrA.remove).2).remove).2).remove).2).remove).1 = some 'g' ∧
    (((((((((lotrA.remove).2).remove).2).remove).2).remove).2).remove).1 =
      some 's' := by
  decide

/-- C10: when `remove` returns an element, the cursor keeps its position,
every logical index below the cursor reads unchanged, and every element
previously at a logical index `j` above the cursor is afterwards at
`j - 1`. -/
theorem claim10_remove_frame {α : Type} (b : GapBuffer α) (hw : b.Wf)
    (hs : ((b.remove).1).isSome = true) :
    ((b.remove).2).position = b.position ∧
    (∀ i : Nat, i < b.position → ((b.remove).2).get i = b.get i) ∧
    (∀ j : Nat, b.position < j → ((b.remove).2).get (j - 1) = b.get j) := by
  have hne : b.gapEnd ≠ b.capacity := by
    intro he
    rw [GapBuffer.remove_of_end b he] at hs
    simp at hs
  have hm2 : (b.remove).2 = ⟨b.storage, b.gapStart, b.gapEnd + 1⟩ := by
    rw [GapBuffer.remove_of_mid b hne]
  obtain ⟨h1, h2, h3⟩ := hw
  rw [hm2]
  refine ⟨rfl, ?_, ?_⟩
  · intro i hi
    simp only [GapBuffer.position] at hi
    simp only [GapBuffer.get, GapBuffer.index_to_raw, GapBuffer.capacity,
      GapBuffer.gapLen, GapBuffer.space]
    rw [if_pos hi, if_pos hi]
  · intro j hj
    simp only [GapBuffer.position] at hj
    simp only [GapBuffer.get, GapBuffer.index_to_raw, GapBuffer.capacity,
      GapBuffer.gapLen, GapBuffer.space]
    rw [if_neg (show ¬ j - 1 < b.gapStart by omega),
      if_neg (show ¬ j < b.gapStart by omega)]
    have hidx : j - 1 + (b.gapEnd + 1 - b.gapStart) = j + (b.gapEnd - b.gapStart) := by
      omega
    rw [hidx]

/-- Witness for C10 on a one-element buffer with the cursor at the
front. -/
theorem claim10_witness :
    (((⟨[some 'a'], 0, 0⟩ : GapBuffer Char).remove).2).position =
        (⟨[some 'a'], 0, 0⟩ : GapBuffer Char).position ∧
      (∀ i : Nat, i < (⟨[some 'a'], 0, 0⟩ : GapBuffer Char).position →
        (((⟨[some 'a'], 0, 0⟩ : GapBuffer Char).remove).2).get i =
          (⟨[some 'a'], 0, 0⟩ : GapBuffer Char).get i) ∧
      (∀ j : Nat, (⟨[some 'a'], 0, 0⟩ : GapBuffer Char).position < j →
        (((⟨[some 'a'], 0, 0⟩ : GapBuffer Char).remove).2).get (j - 1) =
          (⟨[some 'a'], 0, 0⟩ : GapBuffer Char).get j) :=
  claim10_remove_frame (⟨[some 'a'], 0, 0⟩ : GapBuffer Char) (by decide) (by decide)

end RustGap
